import Mathlib

/-!
Verification of the genice-petal plugin core (`genice_petal/formats/petal.py`).

The Python source is shallowly embedded below.  Fractional coordinates are
modelled by rationals (`ℚ`), so the arithmetic of `is_spanning`
(`d - floor(d + 0.5)` per axis, summed around the ring, compared with the
tolerance `1e-4`) is exact; the comparison `norm > 1e-4` is rendered as the
equivalent `normSq > (1e-4)^2` to stay inside `ℚ`.
-/

namespace GenicePetal

/-- A fractional coordinate vector: one rational per axis (3 axes). -/
abbrev Vec3 := Fin 3 → ℚ

/-- One axis of the minimum-image displacement: `d - floor(d + 0.5)`
(line 44 of petal.py: `d -= np.floor(d+0.5)`). -/
def minImage (d : ℚ) : ℚ := d - Int.floor (d + 1/2)

/-- The consecutive wrap-around pairs `(ring[i-1], ring[i])` for
`i = 0, ..., len(ring)-1`, exactly as the loops in `is_spanning`
(lines 41-42) and `ring_to_edge` (lines 53-55) of petal.py produce them
(`ring[-1]` is the last element). -/
def ring_to_edges (ring : List ℕ) : List (ℕ × ℕ) :=
  (List.range ring.length).map
    (fun i => (ring.getD ((i + ring.length - 1) % ring.length) 0, ring.getD i 0))

/-- The sum `dsum` of per-edge minimum-image displacements around the ring
(lines 40-45 of petal.py), one component per axis. -/
def dsum (ring : List ℕ) (coord : ℕ → Vec3) : Vec3 :=
  fun a => ((ring_to_edges ring).map (fun e => minImage (coord e.1 a - coord e.2 a))).sum

/-- Squared Euclidean norm of a 3-vector. -/
def normSq (v : Vec3) : ℚ := v 0 ^ 2 + v 1 ^ 2 + v 2 ^ 2

/-- The spanning tolerance `1e-4` (line 46 of petal.py). -/
def spanEps : ℚ := 1 / 10000

/-- `is_spanning(ring, coord)` (lines 38-46 of petal.py):
`np.linalg.norm(dsum) > 1e-4`, rendered by squaring both sides. -/
def is_spanning (ring : List ℕ) (coord : ℕ → Vec3) : Bool :=
  decide (spanEps ^ 2 < normSq (dsum ring coord))

/-! ### Basic facts about `ring_to_edges` -/

theorem getElem_idx_eq {α : Type} (l : List α) {i j : ℕ} (hi : i < l.length)
    (hj : j < l.length) (h : i = j) : l[i] = l[j] := by
  subst h; rfl

theorem ring_to_edges_eq_zip (ring : List ℕ) :
    ring_to_edges ring = (ring.rotate (ring.length - 1)).zip ring := by
  apply List.ext_getElem
  · simp [ring_to_edges]
  · intro i h₁ h₂
    have hn : i < ring.length := by simpa [ring_to_edges] using h₁
    have hpos : 0 < ring.length := by omega
    have hmod : (i + ring.length - 1) % ring.length < ring.length :=
      Nat.mod_lt _ hpos
    have hmod2 : (i + (ring.length - 1)) % ring.length < ring.length :=
      Nat.mod_lt _ hpos
    simp only [ring_to_edges, List.getElem_map, List.getElem_range,
      List.getElem_zip, List.getElem_rotate]
    rw [Prod.mk.injEq]
    constructor
    · rw [List.getD_eq_getElem ring 0 hmod]
      exact getElem_idx_eq ring hmod hmod2 (by congr 1; omega)
    · rw [List.getD_eq_getElem ring 0 hn]

theorem zip_rotate (l₁ l₂ : List ℕ) (m : ℕ) (h : l₁.length = l₂.length) :
    (l₁.rotate m).zip (l₂.rotate m) = (l₁.zip l₂).rotate m := by
  apply List.ext_getElem
  · simp [h]
  · intro i h₁ h₂
    simp only [List.getElem_zip, List.getElem_rotate, List.length_zip, h,
      Nat.min_self]

theorem ring_to_edges_rotate (ring : List ℕ) (m : ℕ) :
    ring_to_edges (ring.rotate m) = (ring_to_edges ring).rotate m := by
  rw [ring_to_edges_eq_zip, ring_to_edges_eq_zip, List.length_rotate,
    List.rotate_rotate, Nat.add_comm m (ring.length - 1), ← List.rotate_rotate,
    zip_rotate]
  simp

/-! ### The displacement sum around any cyclic pair list is an integer vector -/

theorem sum_map_sub {α : Type} (g h : α → ℚ) (l : List α) :
    (l.map (fun x => g x - h x)).sum = (l.map g).sum - (l.map h).sum := by
  induction l with
  | nil => simp
  | cons x xs ih => simp only [List.map_cons, List.sum_cons, ih]; ring

theorem zip_sum_sub (f : ℕ → ℚ) (l₁ l₂ : List ℕ) (h : l₁.length = l₂.length) :
    ((l₁.zip l₂).map (fun e => f e.1 - f e.2)).sum
      = (l₁.map f).sum - (l₂.map f).sum := by
  induction l₁ generalizing l₂ with
  | nil =>
    cases l₂ with
    | nil => simp
    | cons y ys => simp at h
  | cons x xs ih =>
    cases l₂ with
    | nil => simp at h
    | cons y ys =>
      simp only [List.length_cons, Nat.succ.injEq] at h
      simp only [List.zip_cons_cons, List.map_cons, List.sum_cons, ih ys h]
      ring

/-- The raw (uncorrected) displacements telescope to zero around the cycle. -/
theorem raw_sum_zero (ring : List ℕ) (f : ℕ → ℚ) :
    ((ring_to_edges ring).map (fun e => f e.1 - f e.2)).sum = 0 := by
  rw [ring_to_edges_eq_zip, zip_sum_sub f _ _ (by simp),
    ((List.rotate_perm ring (ring.length - 1)).map f).sum_eq, sub_self]

theorem cast_sum_int {α : Type} (g : α → ℤ) (l : List α) :
    (((l.map g).sum : ℤ) : ℚ) = (l.map (fun x => ((g x : ℤ) : ℚ))).sum := by
  induction l with
  | nil => simp
  | cons x xs ih => simp [ih]

/-- Each component of `dsum` is an integer: the raw differences telescope to
zero, and what remains is a (negated) sum of floors. -/
theorem dsum_int (ring : List ℕ) (coord : ℕ → Vec3) (a : Fin 3) :
    ∃ z : ℤ, dsum ring coord a = (z : ℚ) := by
  refine ⟨-((ring_to_edges ring).map
      (fun e => Int.floor (coord e.1 a - coord e.2 a + 1/2))).sum, ?_⟩
  have hsplit : dsum ring coord a
      = ((ring_to_edges ring).map (fun e => coord e.1 a - coord e.2 a)).sum
        - ((ring_to_edges ring).map
            (fun e => ((Int.floor (coord e.1 a - coord e.2 a + 1/2) : ℤ) : ℚ))).sum := by
    unfold dsum minImage
    exact sum_map_sub _ _ _
  have hcast : ((((ring_to_edges ring).map
        (fun e => Int.floor (coord e.1 a - coord e.2 a + 1/2))).sum : ℤ) : ℚ)
      = ((ring_to_edges ring).map
          (fun e => ((Int.floor (coord e.1 a - coord e.2 a + 1/2) : ℤ) : ℚ))).sum :=
    cast_sum_int _ _
  rw [hsplit,
    show (List.map (fun e => coord e.1 a - coord e.2 a) (ring_to_edges ring)).sum = 0
      from raw_sum_zero ring (fun n => coord n a),
    zero_sub, ← hcast]
  push_cast
  ring

theorem component_le_normSq (v : Vec3) (a : Fin 3) : v a ^ 2 ≤ normSq v := by
  unfold normSq
  rcases a with ⟨av, hav⟩
  interval_cases av
  · have h0 : v ⟨0, hav⟩ = v 0 := rfl
    rw [h0]
    nlinarith [sq_nonneg (v 1), sq_nonneg (v 2)]
  · have h1 : v ⟨1, hav⟩ = v 1 := rfl
    rw [h1]
    nlinarith [sq_nonneg (v 0), sq_nonneg (v 2)]
  · have h2 : v ⟨2, hav⟩ = v 2 := rfl
    rw [h2]
    nlinarith [sq_nonneg (v 0), sq_nonneg (v 1)]

/-- A non-spanning verdict forces the displacement sum to vanish exactly:
each component is an integer, and a nonzero integer component would make
the squared norm at least `1`, far above the squared tolerance. -/
theorem not_spanning_dsum_zero (ring : List ℕ) (coord : ℕ → Vec3)
    (h : is_spanning ring coord = false) : ∀ a, dsum ring coord a = 0 := by
  intro a
  by_contra hne
  obtain ⟨z, hz⟩ := dsum_int ring coord a
  have hz0 : z ≠ 0 := by
    intro h0
    apply hne
    rw [hz, h0, Int.cast_zero]
  have hzsq : (1 : ℚ) ≤ (z : ℚ) ^ 2 := by
    have h1 : (1 : ℤ) ≤ z ^ 2 := by
      rcases lt_or_gt_of_ne hz0 with hlt | hgt
      · nlinarith
      · nlinarith
    exact_mod_cast h1
  have hcomp : (1 : ℚ) ≤ dsum ring coord a ^ 2 := by rw [hz]; exact hzsq
  have hbound : normSq (dsum ring coord) ≤ spanEps ^ 2 := by
    have hd := of_decide_eq_false h
    push_neg at hd
    exact hd
  have hone : (1 : ℚ) ≤ normSq (dsum ring coord) :=
    le_trans hcomp (component_le_normSq _ a)
  have heps : spanEps ^ 2 < 1 := by norm_num [spanEps]
  linarith

theorem not_spanning_normSq_zero (ring : List ℕ) (coord : ℕ → Vec3)
    (h : is_spanning ring coord = false) : normSq (dsum ring coord) = 0 := by
  have hz := not_spanning_dsum_zero ring coord h
  unfold normSq
  rw [hz 0, hz 1, hz 2]
  norm_num

/-! ### C10: rotation invariance of `is_spanning` -/

theorem dsum_rotate (ring : List ℕ) (coord : ℕ → Vec3) (m : ℕ) :
    dsum (ring.rotate m) coord = dsum ring coord := by
  funext a
  unfold dsum
  rw [ring_to_edges_rotate]
  exact ((List.rotate_perm (ring_to_edges ring) m).map _).sum_eq

/-- C10: `is_spanning` is invariant under cyclic rotation of the ring
sequence: for every ring and every position array, rotating the ring by any
offset yields the same boolean result, because the summed minimum-image
displacement ranges over the same set of consecutive wrap-around pairs. -/
theorem is_spanning_rotate (ring : List ℕ) (coord : ℕ → Vec3) (m : ℕ) :
    is_spanning (ring.rotate m) coord = is_spanning ring coord := by
  unfold is_spanning
  rw [dsum_rotate]

/-! ### `prepare` (lines 49-71 of petal.py)

Python's `defaultdict` maps are modelled by a key list (insertion order,
one entry per key ever touched) together with a total function that returns
the accumulated value (`∅` for untouched keys).  An undirected simple-graph
edge of `networkx` is modelled as an order-normalised pair. -/

/-- An undirected edge, normalised so that `edge u v = edge v u`. -/
def normEdge (u v : ℕ) : ℕ × ℕ := if u ≤ v then (u, v) else (v, u)

/-- The edge set of one ring: the consecutive wrap-around pairs produced by
`ring_to_edge` (lines 53-55), deduplicated as in an `nx.Graph`. -/
def ringEdgeSet (ring : List ℕ) : Finset (ℕ × ℕ) :=
  ((ring_to_edges ring).map (fun e => normEdge e.1 e.2)).toFinset

/-- State accumulated by the loop of `prepare`: the ring list, and the
`subgraphs` / `rings_at` defaultdicts (key list in insertion order plus
lookup function). -/
structure PState where
  rings : List (List ℕ)
  subKeys : List ℕ
  sub : ℕ → Finset (ℕ × ℕ)
  raKeys : List ℕ
  ra : ℕ → Finset ℕ

/-- Record a key in a defaultdict's insertion-ordered key list. -/
def addKey (ks : List ℕ) (n : ℕ) : List ℕ := if n ∈ ks then ks else ks ++ [n]

def addKeys (ks : List ℕ) (ring : List ℕ) : List ℕ := ring.foldl addKey ks

/-- The body of the `for ring in ...` loop of `prepare` (lines 62-70):
append the ring (its id is the previous length), add the ring id to
`rings_at[node]` for every node of the ring, and add every edge of the ring
to `subgraphs[node]` for every node of the ring. -/
def addRing (st : PState) (ring : List ℕ) : PState :=
  { rings := st.rings ++ [ring]
    raKeys := addKeys st.raKeys ring
    ra := fun n => if n ∈ ring then st.ra n ∪ {st.rings.length} else st.ra n
    subKeys := addKeys st.subKeys ring
    sub := fun n => if n ∈ ring then st.sub n ∪ ringEdgeSet ring else st.sub n }

def initState : PState :=
  { rings := [], subKeys := [], sub := fun _ => ∅, raKeys := [], ra := fun _ => ∅ }

/-- The loop of `prepare`: each enumerated ring is first checked by the
assertion `assert not is_spanning(ring, coord)` (line 62); a spanning ring
aborts the whole run (`none`). -/
def prepareAux (coord : ℕ → Vec3) : PState → List (List ℕ) → Option PState
  | st, [] => some st
  | st, r :: rest =>
    if is_spanning r coord then none
    else prepareAux coord (addRing st r) rest

/-- `prepare(g, coord)` (lines 49-71), taking the externally enumerated ring
stream as a list. -/
def prepare (coord : ℕ → Vec3) (ringList : List (List ℕ)) : Option PState :=
  prepareAux coord initState ringList

/-- The union, as a simple undirected graph, of the edges of every ring of
`rs` that contains `n` (the specified content of `subgraphs[n]`). -/
def petalUnion (n : ℕ) (rs : List (List ℕ)) : Finset (ℕ × ℕ) :=
  ((rs.filter (fun r => n ∈ r)).map ringEdgeSet).foldr (· ∪ ·) ∅

/-! ### Loop invariants of `prepare` -/

theorem prepareAux_step (coord : ℕ → Vec3) (st : PState) (r : List ℕ)
    (rest : List (List ℕ)) (hs : is_spanning r coord = false) :
    prepareAux coord st (r :: rest) = prepareAux coord (addRing st r) rest := by
  simp [prepareAux, hs]

theorem prepareAux_none_iff (coord : ℕ → Vec3) (st : PState) (l : List (List ℕ)) :
    prepareAux coord st l = none ↔ ∃ r ∈ l, is_spanning r coord = true := by
  induction l generalizing st with
  | nil => simp [prepareAux]
  | cons r rest ih =>
    rcases Bool.eq_false_or_eq_true (is_spanning r coord) with hs | hs
    · constructor
      · intro _
        exact ⟨r, List.mem_cons_self r rest, hs⟩
      · intro _
        simp [prepareAux, hs]
    · rw [prepareAux_step coord st r rest hs, ih (addRing st r)]
      constructor
      · rintro ⟨r', hmem, hsp⟩
        exact ⟨r', List.mem_cons_of_mem r hmem, hsp⟩
      · rintro ⟨r', hmem, hsp⟩
        rcases List.mem_cons.1 hmem with heq | hmem2
        · subst heq
          rw [hsp] at hs
          cases hs
        · exact ⟨r', hmem2, hsp⟩

theorem prepareAux_rings (coord : ℕ → Vec3) (st st' : PState) (l : List (List ℕ))
    (h : prepareAux coord st l = some st') :
    st'.rings = st.rings ++ l ∧ ∀ r ∈ l, is_spanning r coord = false := by
  induction l generalizing st with
  | nil =>
    simp only [prepareAux, Option.some.injEq] at h
    subst h
    simp
  | cons r rest ih =>
    rcases Bool.eq_false_or_eq_true (is_spanning r coord) with hs | hs
    · simp [prepareAux, hs] at h
    · rw [prepareAux_step coord st r rest hs] at h
      obtain ⟨h1, h2⟩ := ih (addRing st r) h
      refine ⟨?_, ?_⟩
      · rw [h1]
        simp [addRing]
      · intro r' hr'
        rcases List.mem_cons.1 hr' with heq | hmem
        · subst heq
          exact hs
        · exact h2 r' hmem

theorem prepareAux_sub (coord : ℕ → Vec3) (st st' : PState) (l : List (List ℕ))
    (h : prepareAux coord st l = some st') (n : ℕ) :
    st'.sub n = st.sub n ∪ petalUnion n l := by
  induction l generalizing st with
  | nil =>
    simp only [prepareAux, Option.some.injEq] at h
    subst h
    simp [petalUnion]
  | cons r rest ih =>
    rcases Bool.eq_false_or_eq_true (is_spanning r coord) with hs | hs
    · simp [prepareAux, hs] at h
    · rw [prepareAux_step coord st r rest hs] at h
      rw [ih (addRing st r) h]
      have hpet : petalUnion n (r :: rest)
          = if n ∈ r then ringEdgeSet r ∪ petalUnion n rest else petalUnion n rest := by
        unfold petalUnion
        by_cases hn : n ∈ r
        · simp [hn, List.filter_cons]
        · simp [hn, List.filter_cons]
      rw [hpet]
      show (if n ∈ r then st.sub n ∪ ringEdgeSet r else st.sub n) ∪ petalUnion n rest = _
      by_cases hn : n ∈ r
      · rw [if_pos hn, if_pos hn, Finset.union_assoc]
      · rw [if_neg hn, if_neg hn]

theorem mem_addKey (ks : List ℕ) (m n : ℕ) :
    n ∈ addKey ks m ↔ n ∈ ks ∨ n = m := by
  unfold addKey
  by_cases h : m ∈ ks
  · simp only [if_pos h]
    constructor
    · exact Or.inl
    · rintro (hn | rfl)
      · exact hn
      · exact h
  · simp [if_neg h]

theorem mem_addKeys (ring : List ℕ) (ks : List ℕ) (n : ℕ) :
    n ∈ addKeys ks ring ↔ n ∈ ks ∨ n ∈ ring := by
  induction ring generalizing ks with
  | nil => simp [addKeys]
  | cons x xs ih =>
    simp only [addKeys, List.foldl_cons] at ih ⊢
    rw [ih, mem_addKey, List.mem_cons]
    tauto

theorem prepareAux_subKeys (coord : ℕ → Vec3) (st st' : PState) (l : List (List ℕ))
    (h : prepareAux coord st l = some st') (n : ℕ) :
    n ∈ st'.subKeys ↔ n ∈ st.subKeys ∨ ∃ r ∈ l, n ∈ r := by
  induction l generalizing st with
  | nil =>
    simp only [prepareAux, Option.some.injEq] at h
    subst h
    simp
  | cons r rest ih =>
    rcases Bool.eq_false_or_eq_true (is_spanning r coord) with hs | hs
    · simp [prepareAux, hs] at h
    · rw [prepareAux_step coord st r rest hs] at h
      rw [ih (addRing st r) h]
      simp only [addRing, mem_addKeys, List.mem_cons]
      constructor
      · rintro ((hk | hr) | ⟨r', hr', hn⟩)
        · exact Or.inl hk
        · exact Or.inr ⟨r, Or.inl rfl, hr⟩
        · exact Or.inr ⟨r', Or.inr hr', hn⟩
      · rintro (hk | ⟨r', hr' | hr', hn⟩)
        · exact Or.inl (Or.inl hk)
        · subst hr'
          exact Or.inl (Or.inr hn)
        · exact Or.inr ⟨r', hr', hn⟩

theorem prepareAux_raKeys (coord : ℕ → Vec3) (st st' : PState) (l : List (List ℕ))
    (h : prepareAux coord st l = some st') (n : ℕ) :
    n ∈ st'.raKeys ↔ n ∈ st.raKeys ∨ ∃ r ∈ l, n ∈ r := by
  induction l generalizing st with
  | nil =>
    simp only [prepareAux, Option.some.injEq] at h
    subst h
    simp
  | cons r rest ih =>
    rcases Bool.eq_false_or_eq_true (is_spanning r coord) with hs | hs
    · simp [prepareAux, hs] at h
    · rw [prepareAux_step coord st r rest hs] at h
      rw [ih (addRing st r) h]
      simp only [addRing, mem_addKeys, List.mem_cons]
      constructor
      · rintro ((hk | hr) | ⟨r', hr', hn⟩)
        · exact Or.inl hk
        · exact Or.inr ⟨r, Or.inl rfl, hr⟩
        · exact Or.inr ⟨r', Or.inr hr', hn⟩
      · rintro (hk | ⟨r', hr' | hr', hn⟩)
        · exact Or.inl (Or.inl hk)
        · subst hr'
          exact Or.inl (Or.inr hn)
        · exact Or.inr ⟨r', hr', hn⟩

theorem addKey_nodup (ks : List ℕ) (m : ℕ) (h : ks.Nodup) : (addKey ks m).Nodup := by
  unfold addKey
  by_cases hm : m ∈ ks
  · simpa [if_pos hm]
  · simp [if_neg hm, List.nodup_append, h, hm]

theorem addKeys_nodup (ring ks : List ℕ) (h : ks.Nodup) : (addKeys ks ring).Nodup := by
  induction ring generalizing ks with
  | nil => simpa [addKeys]
  | cons x xs ih =>
    simp only [addKeys, List.foldl_cons]
    exact ih (addKey ks x) (addKey_nodup ks x h)

theorem prepareAux_subKeys_nodup (coord : ℕ → Vec3) (st st' : PState)
    (l : List (List ℕ)) (h : prepareAux coord st l = some st')
    (hnd : st.subKeys.Nodup) : st'.subKeys.Nodup := by
  induction l generalizing st with
  | nil =>
    simp only [prepareAux, Option.some.injEq] at h
    subst h
    exact hnd
  | cons r rest ih =>
    rcases Bool.eq_false_or_eq_true (is_spanning r coord) with hs | hs
    · simp [prepareAux, hs] at h
    · rw [prepareAux_step coord st r rest hs] at h
      exact ih (addRing st r) h (addKeys_nodup r st.subKeys hnd)

/-! ### C1 and C2 -/

theorem prepare_sub_eq (coord : ℕ → Vec3) (ringList : List (List ℕ)) (st : PState)
    (h : prepare coord ringList = some st) (n : ℕ) :
    st.sub n = petalUnion n ringList := by
  unfold prepare at h
  have hs := prepareAux_sub coord initState st ringList h n
  simpa [initState] using hs

theorem prepare_subKeys_iff (coord : ℕ → Vec3) (ringList : List (List ℕ)) (st : PState)
    (h : prepare coord ringList = some st) (n : ℕ) :
    n ∈ st.subKeys ↔ ∃ r ∈ ringList, n ∈ r := by
  unfold prepare at h
  have hs := prepareAux_subKeys coord initState st ringList h n
  simpa [initState] using hs

theorem prepare_raKeys_iff (coord : ℕ → Vec3) (ringList : List (List ℕ)) (st : PState)
    (h : prepare coord ringList = some st) (n : ℕ) :
    n ∈ st.raKeys ↔ ∃ r ∈ ringList, n ∈ r := by
  unfold prepare at h
  have hs := prepareAux_raKeys coord initState st ringList h n
  simpa [initState] using hs

/-- C1: after `prepare` has consumed all enumerated rings, `subgraphs[n]`
is exactly the union, as a simple undirected graph, of the edges
(consecutive cyclic pairs) of every ring containing `n` — no more, no
less — and a node belonging to zero rings has no entry at all in the
`subgraphs` map or the `rings_at` map (it is absent from their key lists,
rather than present with an empty value). -/
theorem prepare_petal_subgraphs (coord : ℕ → Vec3) (ringList : List (List ℕ))
    (st : PState) (h : prepare coord ringList = some st) :
    (∀ n, st.sub n = petalUnion n ringList)
    ∧ (∀ n, n ∈ st.subKeys ↔ ∃ r ∈ ringList, n ∈ r)
    ∧ (∀ n, n ∈ st.raKeys ↔ ∃ r ∈ ringList, n ∈ r) :=
  ⟨prepare_sub_eq coord ringList st h, prepare_subKeys_iff coord ringList st h,
    prepare_raKeys_iff coord ringList st h⟩

/-- Concrete run for the witnesses: a single triangle ring with all
coordinates at the origin. -/
def coord0 : ℕ → Vec3 := fun _ _ => 0

theorem coord0_not_spanning (r : List ℕ) : is_spanning r coord0 = false := by
  have hd : ∀ a, dsum r coord0 a = 0 := by
    intro a
    unfold dsum
    apply List.sum_eq_zero
    intro x hx
    simp only [List.mem_map] at hx
    obtain ⟨e, _, he⟩ := hx
    rw [← he]
    simp only [coord0, sub_self, minImage, zero_add]
    rw [show Int.floor ((1 : ℚ)/2) = 0 from Int.floor_eq_zero_iff.mpr (by constructor <;> norm_num)]
    norm_num
  unfold is_spanning
  rw [show normSq (dsum r coord0) = 0 by unfold normSq; rw [hd 0, hd 1, hd 2]; norm_num]
  rw [decide_eq_false]
  norm_num [spanEps]

theorem prepare_coord0_triangle :
    prepare coord0 [[0, 1, 2]] = some (addRing initState [0, 1, 2]) := by
  unfold prepare
  rw [prepareAux_step coord0 initState [0, 1, 2] [] (coord0_not_spanning _)]
  rfl

theorem prepare_petal_subgraphs_witness :
    (addRing initState [0, 1, 2]).sub 0 = petalUnion 0 [[0, 1, 2]]
    ∧ (addRing initState [0, 1, 2]).sub 7 = petalUnion 7 [[0, 1, 2]] := by
  have hc := prepare_petal_subgraphs coord0 [[0, 1, 2]] _ prepare_coord0_triangle
  exact ⟨hc.1 0, hc.1 7⟩

/-- C2: `prepare` hits its assertion (aborting the run) iff some enumerated
ring is spanning, where spanning means the squared Euclidean norm of the
summed per-axis minimum-image displacements `d - floor(d + 0.5)` exceeds
`(1e-4)^2`; and every ring accepted into the ring list satisfies
`normSq < (1e-4)^2` (in fact its displacement sum is exactly zero, being an
integer vector of squared norm below 1). -/
theorem prepare_assert_iff_spanning (coord : ℕ → Vec3) (ringList : List (List ℕ)) :
    (prepare coord ringList = none ↔ ∃ r ∈ ringList, is_spanning r coord = true)
    ∧ ∀ st, prepare coord ringList = some st →
        ∀ r ∈ st.rings, normSq (dsum r coord) < spanEps ^ 2 := by
  constructor
  · exact prepareAux_none_iff coord initState ringList
  · intro st h r hr
    obtain ⟨h1, h2⟩ := prepareAux_rings coord initState st ringList h
    rw [h1] at hr
    simp only [initState, List.nil_append] at hr
    have hz := not_spanning_normSq_zero r coord (h2 r hr)
    rw [hz]
    norm_num [spanEps]

theorem prepare_assert_iff_spanning_witness :
    normSq (dsum [0, 1, 2] coord0) < spanEps ^ 2 := by
  refine (prepare_assert_iff_spanning coord0 [[0, 1, 2]]).2 _
    prepare_coord0_triangle [0, 1, 2] ?_
  show [0, 1, 2] ∈ (addRing initState [0, 1, 2]).rings
  simp [addRing, initState]

/-! ### `collect` (lines 73-85 of petal.py) -/

/-- Abstract interface of the graphstat registry consumed by `collect`:
`query_id` may consult and update its internal state (returning a negative
sentinel when the graph is unknown), `register` returns the newly assigned
class id together with the updated state. -/
structure RegIface (σ : Type) where
  queryId : σ → Finset (ℕ × ℕ) → ℤ × σ
  register : σ → ℕ × σ

/-- One classification step of `collect` (lines 80-84):
`id = gc.query_id(subgraphs[node]); if id < 0: id = gc.register()`. -/
def classifyStep {σ : Type} (R : RegIface σ) (s : σ) (g : Finset (ℕ × ℕ)) : ℕ × σ :=
  let q := R.queryId s g
  if q.1 < 0 then R.register q.2 else (q.1.toNat, q.2)

/-- The loop `for node in subgraphs:` of `collect` (lines 79-84), iterating
over the keys of `subgraphs` in insertion order and building the dict
`ids` as an association list. -/
def collectAux {σ : Type} (R : RegIface σ) (sub : ℕ → Finset (ℕ × ℕ)) :
    List ℕ → σ → List (ℕ × ℕ) × σ
  | [], s => ([], s)
  | n :: rest, s =>
    let v := classifyStep R s (sub n)
    let r := collectAux R sub rest v.2
    ((n, v.1) :: r.1, r.2)

/-- `collect(subgraphs, gc)` (lines 73-85). -/
def collect {σ : Type} (R : RegIface σ) (st : PState) (s : σ) : List (ℕ × ℕ) × σ :=
  collectAux R st.sub st.subKeys s

theorem collectAux_keys {σ : Type} (R : RegIface σ) (sub : ℕ → Finset (ℕ × ℕ))
    (ks : List ℕ) (s : σ) :
    (collectAux R sub ks s).1.map Prod.fst = ks := by
  induction ks generalizing s with
  | nil => rfl
  | cons n rest ih => simp [collectAux, ih]

theorem collectAux_get (σ : Type) (R : RegIface σ) (sub : ℕ → Finset (ℕ × ℕ))
    (ks : List ℕ) (s : σ) (i : ℕ) (k : ℕ) (hk : ks.get? i = some k) :
    (collectAux R sub ks s).1.get? i
      = some (k, (classifyStep R (collectAux R sub (ks.take i) s).2 (sub k)).1) := by
  induction ks generalizing s i with
  | nil => simp at hk
  | cons n rest ih =>
    cases i with
    | zero =>
      simp only [List.get?_cons_zero, Option.some.injEq] at hk
      subst hk
      rfl
    | succ i =>
      simp only [List.get?_cons_succ] at hk
      have := ih (classifyStep R s (sub n)).2 i hk
      simpa [collectAux] using this

/-- C4: `collect` assigns a class id to every node that owns at least one
ring and only those (its key list is exactly the duplicate-free
`subgraphs` key list, which contains exactly the ring-owning nodes), and
the id stored for the `i`-th node is the result of `query_id` on that
node's petal subgraph at the registry state reached so far when it is
non-negative, and otherwise the fresh id returned by `register`
(`classifyStep` at the intermediate state). -/
theorem collect_classification {σ : Type} (R : RegIface σ) (coord : ℕ → Vec3)
    (ringList : List (List ℕ)) (st : PState) (s : σ)
    (h : prepare coord ringList = some st) :
    ((collect R st s).1.map Prod.fst = st.subKeys)
    ∧ st.subKeys.Nodup
    ∧ (∀ n, n ∈ (collect R st s).1.map Prod.fst ↔ ∃ r ∈ ringList, n ∈ r)
    ∧ ∀ i k, st.subKeys.get? i = some k →
        (collect R st s).1.get? i
          = some (k, (classifyStep R (collectAux R st.sub (st.subKeys.take i) s).2
              (st.sub k)).1) := by
  have hkeys := collectAux_keys R st.sub st.subKeys s
  refine ⟨hkeys, ?_, ?_, ?_⟩
  · exact prepareAux_subKeys_nodup coord initState st ringList h (by simp [initState])
  · intro n
    rw [show (collect R st s).1.map Prod.fst = st.subKeys from hkeys]
    exact prepare_subKeys_iff coord ringList st h n
  · intro i k hk
    exact collectAux_get σ R st.sub st.subKeys s i k hk

/-- A concrete registry for the witness: every query misses, `register`
hands out consecutive ids. -/
def regFresh : RegIface ℕ :=
  { queryId := fun s _ => (-1, s), register := fun s => (s, s + 1) }

theorem collect_classification_witness :
    ((collect regFresh (addRing initState [0, 1, 2]) 0).1.map Prod.fst
      = (addRing initState [0, 1, 2]).subKeys)
    ∧ (addRing initState [0, 1, 2]).subKeys.Nodup := by
  have hc := collect_classification regFresh coord0 [[0, 1, 2]]
    (addRing initState [0, 1, 2]) 0 prepare_coord0_triangle
  exact ⟨hc.1, hc.2.1⟩

/-! ### `hook0` (lines 150-175 of petal.py)

The option string and its tokens are modelled as `List Char`; `str.split`
on a one-character separator is embedded as `splitOnChar`.  A `ValueError`
(raised by unpacking `a.split("=")` into two variables when the token holds
more than one `=`) is modelled as `none`. -/

structure Options where
  database : Option String
  json : Bool
  yaplot : Bool
deriving DecidableEq

def defaultOptions : Options := { database := none, json := false, yaplot := false }

/-- Python `str.split(sep)` for a one-character separator `sep`. -/
def splitOnChar (sep : Char) : List Char → List (List Char)
  | [] => [[]]
  | c :: cs =>
    let r := splitOnChar sep cs
    if c = sep then [] :: r
    else
      match r with
      | [] => [[c]]
      | h :: t => (c :: h) :: t

/-- One iteration of the token loop of `hook0` (lines 162-174):
a token with `=` is logged and skipped when `key, value = a.split("=")`
unpacks (exactly two parts) and raises `ValueError` otherwise; `yaplot` and
`json` set their flags; anything else becomes the database path. -/
def parseToken (opts : Options) (a : List Char) : Option Options :=
  if a.contains '=' then
    match splitOnChar '=' a with
    | [_, _] => some opts
    | _ => none
  else if a = "yaplot".data then some { opts with yaplot := true }
  else if a = "json".data then some { opts with json := true }
  else some { opts with database := some (String.mk a) }

def runTokens : Options → List (List Char) → Option Options
  | opts, [] => some opts
  | opts, a :: rest =>
    match parseToken opts a with
    | some o => runTokens o rest
    | none => none

/-- `hook0(lattice, arg)` (lines 150-175): defaults, then the token loop
over `arg.split(":")` unless `arg` is empty. -/
def hook0 (arg : List Char) : Option Options :=
  if arg = [] then some defaultOptions
  else runTokens defaultOptions (splitOnChar ':' arg)

/-- C7 counterexample: the token `a=b=c` contains `=` but is not ignored —
`key, value = a.split("=")` raises `ValueError`, so parsing
`"a=b=c:json"` crashes while parsing `"json"` (the same string with the
token removed) succeeds; the two results differ. -/
theorem hook0_eq_token_counterexample :
    hook0 ("a=b=c:json".data) = none
    ∧ hook0 ("json".data) = some { database := none, json := true, yaplot := false }
    ∧ hook0 ("a=b=c:json".data) ≠ hook0 ("json".data) := by
  refine ⟨by decide, by decide, by decide⟩

/-- C7 amended: a colon-separated token containing exactly one `=` (so that
`a.split("=")` unpacks into two parts) is logged and has no effect: the
options parsed from any token sequence containing it equal those parsed
with the token removed.  (A token with two or more `=` instead aborts
parsing with a `ValueError`.) -/
theorem hook0_single_eq_token_ignored (opts : Options) (ts1 ts2 : List (List Char))
    (t : List Char) (hc : t.contains '=' = true)
    (h2 : (splitOnChar '=' t).length = 2) :
    runTokens opts (ts1 ++ t :: ts2) = runTokens opts (ts1 ++ ts2) := by
  induction ts1 generalizing opts with
  | nil =>
    have hshape : ∃ x y, splitOnChar '=' t = [x, y] := by
      rcases hsp : splitOnChar '=' t with _ | ⟨x, _ | ⟨y, _ | _⟩⟩ <;>
        simp [hsp] at h2 ⊢
    obtain ⟨x, y, hxy⟩ := hshape
    have hstep : parseToken opts t = some opts := by
      unfold parseToken
      rw [if_pos hc, hxy]
    simp [runTokens, hstep]
  | cons a ts1' ih =>
    simp only [List.cons_append, runTokens]
    cases parseToken opts a with
    | none => rfl
    | some o => exact ih o

theorem hook0_single_eq_token_ignored_witness :
    runTokens defaultOptions ["a=b".data, "json".data]
      = runTokens defaultOptions ["json".data] :=
  hook0_single_eq_token_ignored defaultOptions [] ["json".data] ("a=b".data)
    (by decide) (by decide)

/-! ### Registry backend selection in `hook2` (lines 100-113 of petal.py) -/

/-- The module-level names bound by the imports of petal.py
(lines 20-35): `import sys`, `from collections import defaultdict`,
`import json`, `from logging import getLogger, basicConfig, INFO, DEBUG`,
`from attrdict import AttrDict`, `import numpy as np`,
`import networkx as nx`, `from countrings import countrings_nx as cr`,
`import graphstat`, `from graphstat import graphstat_sqlite3`,
`import yaplotlib as yp`. -/
def importedNames : List String :=
  ["sys", "defaultdict", "json", "getLogger", "basicConfig", "INFO", "DEBUG",
   "AttrDict", "np", "nx", "cr", "graphstat", "graphstat_sqlite3", "yp"]

inductive BackendChoice
  | volatile
  | mysql (url : String)
  | sqlite3 (path : String) (create : Bool)
deriving DecidableEq

/-- The registry dispatch of `hook2` (lines 100-113): `None` picks the
volatile in-memory registry, `database[:4] == "http"` picks the MySQL
branch, anything else a local Sqlite3 file, created iff absent
(`create = not os.path.isfile(database)`). -/
def chooseBackend (database : Option String) (isfile : String → Bool) : BackendChoice :=
  match database with
  | none => BackendChoice.volatile
  | some d =>
    if d.data.take 4 = "http".data then BackendChoice.mysql d
    else BackendChoice.sqlite3 d (!isfile d)

/-- The module-level name each branch of `hook2` reads to build the
registry: `graphstat.GraphStat()` (line 103),
`graphstat_mysql.GraphStat(database)` (line 106),
`graphstat_sqlite3.GraphStat(database, create=create)` (line 113). -/
def backendGlobalName : BackendChoice → String
  | BackendChoice.volatile => "graphstat"
  | BackendChoice.mysql _ => "graphstat_mysql"
  | BackendChoice.sqlite3 _ _ => "graphstat_sqlite3"

/-- C3: the volatile and Sqlite3 branches behave as claimed (absent token →
volatile registry; other token → file-backed registry at that path, created
iff the file does not exist), but the `http` branch refers to the global
name `graphstat_mysql`, which is bound by none of the module's imports —
at runtime `hook2` raises `NameError` instead of opening a network-backed
registry. -/
theorem hook2_database_dispatch :
    chooseBackend none (fun _ => false) = BackendChoice.volatile
    ∧ backendGlobalName BackendChoice.volatile ∈ importedNames
    ∧ chooseBackend (some "http://host/db") (fun _ => false)
        = BackendChoice.mysql "http://host/db"
    ∧ backendGlobalName (BackendChoice.mysql "http://host/db") ∉ importedNames
    ∧ chooseBackend (some "petal.db") (fun _ => false)
        = BackendChoice.sqlite3 "petal.db" true
    ∧ chooseBackend (some "petal.db") (fun _ => true)
        = BackendChoice.sqlite3 "petal.db" false
    ∧ backendGlobalName (BackendChoice.sqlite3 "petal.db" true) ∈ importedNames := by
  refine ⟨rfl, by decide, by decide, by decide, by decide, by decide, by decide⟩

/-! ### The ranked-visual branch of `hook2` (lines 124-145 of petal.py) -/

/-- `count[gid] += 1` on a `defaultdict(int)`, modelled as an association
list in first-touch order (line 129). -/
def bump : List (ℕ × ℕ) → ℕ → List (ℕ × ℕ)
  | [], g => [(g, 1)]
  | (h, c) :: t, g => if h = g then (h, c + 1) :: t else (h, c) :: bump t g

/-- `typical[gid] = node`: dict update, last writer wins (line 130). -/
def setTypical : List (ℕ × ℕ) → ℕ → ℕ → List (ℕ × ℕ)
  | [], g, n => [(g, n)]
  | (h, m) :: t, g, n => if h = g then (h, n) :: t else (h, m) :: setTypical t g n

/-- The counting pass `for node in gids:` (lines 126-130): one fold over the
classification mapping in insertion order, accumulating `count` and
`typical`. -/
def countPass (gids : List (ℕ × ℕ)) : List (ℕ × ℕ) × List (ℕ × ℕ) :=
  gids.foldl (fun acc p => (bump acc.1 p.2, setTypical acc.2 p.2 p.1)) ([], [])

/-- `count[gid]` (`0` for absent keys, as in a `defaultdict(int)`). -/
def countOf (counts : List (ℕ × ℕ)) (g : ℕ) : ℕ := (counts.lookup g).getD 0

/-- The sort order of line 131, `sorted(count, key=lambda gid: -count[gid])`:
stable, descending by count. -/
def byCountDesc (a b : ℕ × ℕ) : Prop := b.2 ≤ a.2

instance : DecidableRel byCountDesc := fun a b => inferInstanceAs (Decidable (b.2 ≤ a.2))

instance : IsTotal (ℕ × ℕ) byCountDesc := ⟨fun a b => Nat.le_total b.2 a.2⟩

instance : IsTrans (ℕ × ℕ) byCountDesc := ⟨fun _ _ _ hab hbc => Nat.le_trans hbc hab⟩

def sortedCounts (counts : List (ℕ × ℕ)) : List (ℕ × ℕ) :=
  List.insertionSort byCountDesc counts

/-- `top10 = sorted(count, key=lambda gid: -count[gid])[:30]` (line 131). -/
def top30 (counts : List (ℕ × ℕ)) : List ℕ :=
  ((sortedCounts counts).take 30).map Prod.fst

/-- `ranks = \x7bgid:i for i,gid in enumerate(top10)\x7d` (line 132). -/
def ranksOf (sel : List ℕ) : List (ℕ × ℕ) :=
  sel.enum.map (fun p => (p.2, p.1))

/-- The drawing loop (lines 137-144): one block of primitives per node of
the classification whose class occurs in `ranks`, tagged with that class's
rank.  Each element is `(node, rank)`. -/
def drawnBlocks (gids : List (ℕ × ℕ)) (rk : List (ℕ × ℕ)) : List (ℕ × ℕ) :=
  gids.filterMap (fun p => (rk.lookup p.2).map (fun r => (p.1, r)))

/-! ### Association-list support lemmas -/

theorem bump_keys (t : List (ℕ × ℕ)) (g : ℕ) :
    (bump t g).map Prod.fst
      = if g ∈ t.map Prod.fst then t.map Prod.fst else t.map Prod.fst ++ [g] := by
  induction t with
  | nil => simp [bump]
  | cons p t ih =>
    obtain ⟨h, c⟩ := p
    by_cases hg : h = g
    · subst hg
      simp [bump]
    · simp only [bump, if_neg hg, List.map_cons, ih]
      by_cases hmem : g ∈ t.map Prod.fst
      · simp [hmem, Ne.symm hg]
      · simp [hmem, Ne.symm hg]

theorem bump_keys_nodup (t : List (ℕ × ℕ)) (g : ℕ)
    (h : (t.map Prod.fst).Nodup) : ((bump t g).map Prod.fst).Nodup := by
  rw [bump_keys]
  by_cases hmem : g ∈ t.map Prod.fst
  · simpa [hmem]
  · simp only [hmem, if_false]
    simp [List.nodup_append, h, hmem]

theorem bump_lookup (t : List (ℕ × ℕ)) (g g' : ℕ) :
    (bump t g).lookup g'
      = if g' = g then some (countOf t g + 1) else t.lookup g' := by
  induction t with
  | nil =>
    by_cases hg : g' = g
    · subst hg
      simp [bump, List.lookup, countOf]
    · have hbeq : (g' == g) = false := beq_false_of_ne hg
      simp [bump, List.lookup, countOf, hg, hbeq]
  | cons p t ih =>
    obtain ⟨h, c⟩ := p
    by_cases hg : h = g
    · subst hg
      by_cases hg' : g' = h
      · subst hg'
        simp [bump, List.lookup, countOf]
      · have hbeq : (g' == h) = false := beq_false_of_ne hg'
        simp [bump, List.lookup, countOf, hg', hbeq]
    · by_cases hg' : g' = h
      · subst hg'
        have hne : ¬ g' = g := fun he => hg (he ▸ rfl)
        simp [bump, if_neg hg, List.lookup, hne]
      · simp only [bump, if_neg hg, List.lookup]
        have hbeq : (g' == h) = false := beq_false_of_ne hg'
        simp only [hbeq]
        rw [ih]
        by_cases he : g' = g
        · subst he
          simp [countOf, List.lookup, hbeq]
        · simp [he]

theorem lookup_eq_of_nodupkeys (l : List (ℕ × ℕ)) (g c : ℕ)
    (hnd : (l.map Prod.fst).Nodup) (hmem : (g, c) ∈ l) : l.lookup g = some c := by
  induction l with
  | nil => simp at hmem
  | cons p t ih =>
    obtain ⟨h, m⟩ := p
    simp only [List.map_cons, List.nodup_cons] at hnd
    rcases List.mem_cons.1 hmem with heq | hmem2
    · rw [Prod.mk.injEq] at heq
      obtain ⟨h1, h2⟩ := heq
      subst h1; subst h2
      simp [List.lookup]
    · have hne : g ≠ h := by
        intro he
        subst he
        exact hnd.1 (List.mem_map.2 ⟨(g, c), hmem2, rfl⟩)
      have hbeq : (g == h) = false := beq_false_of_ne hne
      simp only [List.lookup, hbeq]
      exact ih hnd.2 hmem2

theorem lookup_some_mem (l : List (ℕ × ℕ)) (g c : ℕ)
    (h : l.lookup g = some c) : (g, c) ∈ l := by
  induction l with
  | nil => simp [List.lookup] at h
  | cons p t ih =>
    obtain ⟨k, v⟩ := p
    by_cases hg : g = k
    · subst hg
      simp only [List.lookup, beq_self_eq_true, Option.some.injEq] at h
      subst h
      exact List.mem_cons_self _ _
    · have hbeq : (g == k) = false := beq_false_of_ne hg
      simp only [List.lookup, hbeq] at h
      exact List.mem_cons_of_mem _ (ih h)

theorem countPass_counts_nodup_aux (gids : List (ℕ × ℕ))
    (acc : List (ℕ × ℕ) × List (ℕ × ℕ)) (h : (acc.1.map Prod.fst).Nodup) :
    (((gids.foldl (fun acc p => (bump acc.1 p.2, setTypical acc.2 p.2 p.1)) acc).1).map
        Prod.fst).Nodup := by
  induction gids generalizing acc with
  | nil => simpa
  | cons p rest ih =>
    exact ih (bump acc.1 p.2, setTypical acc.2 p.2 p.1) (bump_keys_nodup acc.1 p.2 h)

theorem countPass_counts_nodup (gids : List (ℕ × ℕ)) :
    (((countPass gids).1).map Prod.fst).Nodup :=
  countPass_counts_nodup_aux gids ([], []) (by simp)

/-! ### C9: the `typical` representative is the last writer -/

theorem setTypical_lookup (t : List (ℕ × ℕ)) (g n g' : ℕ) :
    (setTypical t g n).lookup g' = if g' = g then some n else t.lookup g' := by
  induction t with
  | nil =>
    by_cases hg : g' = g
    · subst hg
      simp [setTypical, List.lookup]
    · have hbeq : (g' == g) = false := beq_false_of_ne hg
      simp [setTypical, List.lookup, hg, hbeq]
  | cons p t ih =>
    obtain ⟨h, m⟩ := p
    by_cases hhg : h = g
    · subst hhg
      by_cases hg' : g' = h
      · subst hg'
        simp [setTypical, List.lookup]
      · have hbeq : (g' == h) = false := beq_false_of_ne hg'
        simp [setTypical, List.lookup, hbeq, hg']
    · by_cases hg' : g' = h
      · subst hg'
        have hne : ¬ g' = g := fun he => hhg (he ▸ rfl)
        simp [setTypical, if_neg hhg, List.lookup, hne]
      · have hbeq : (g' == h) = false := beq_false_of_ne hg'
        simp only [setTypical, if_neg hhg, List.lookup, hbeq]
        exact ih

theorem cons_getLast?_or {α : Type} (x : α) (l : List α) (y : Option α) :
    ((x :: l).getLast?).or y = (l.getLast?).or (some x) := by
  cases l with
  | nil => rfl
  | cons h t =>
    rw [List.getLast?_cons_cons]
    obtain ⟨z, hz⟩ := Option.isSome_iff_exists.1 (List.getLast?_isSome.2 (by simp) :
      ((h :: t).getLast?).isSome)
    rw [hz]
    rfl

theorem countPass_typical_aux (gids : List (ℕ × ℕ)) :
    ∀ (acc : List (ℕ × ℕ) × List (ℕ × ℕ)) (g : ℕ),
      ((gids.foldl (fun acc p => (bump acc.1 p.2, setTypical acc.2 p.2 p.1)) acc).2).lookup g
        = (((gids.filter (fun p => p.2 == g)).map Prod.fst).getLast?).or (acc.2.lookup g) := by
  induction gids with
  | nil =>
    intro acc g
    rfl
  | cons p rest ih =>
    intro acc g
    by_cases hg : p.2 = g
    · have hfil : (p :: rest).filter (fun p => p.2 == g)
          = p :: rest.filter (fun p => p.2 == g) := by
        simp [List.filter_cons, hg]
      rw [List.foldl_cons, ih, hfil, List.map_cons, cons_getLast?_or,
        setTypical_lookup]
      rw [if_pos hg.symm]
    · have hfil : (p :: rest).filter (fun p => p.2 == g)
          = rest.filter (fun p => p.2 == g) := by
        simp [List.filter_cons, hg]
      rw [List.foldl_cons, ih, hfil, setTypical_lookup,
        if_neg (fun he => hg he.symm)]

/-- C9: in the ranked-visual mode, the representative node recorded for a
class id is the last node bearing that class encountered during the
counting pass over the classification mapping (last writer wins); for a
class with no node both sides are `none`. -/
theorem hook2_typical_last_writer (gids : List (ℕ × ℕ)) (g : ℕ) :
    ((countPass gids).2).lookup g
      = ((gids.filter (fun p => p.2 == g)).map Prod.fst).getLast? := by
  unfold countPass
  rw [countPass_typical_aux gids ([], []) g]
  cases ((gids.filter (fun p => p.2 == g)).map Prod.fst).getLast? with
  | none => rfl
  | some z => rfl

/-! ### C6: top-30 ranking and selection -/

theorem sortedCounts_sorted (counts : List (ℕ × ℕ)) :
    List.Sorted byCountDesc (sortedCounts counts) :=
  List.sorted_insertionSort byCountDesc counts

theorem sortedCounts_perm (counts : List (ℕ × ℕ)) :
    List.Perm (sortedCounts counts) counts :=
  List.perm_insertionSort byCountDesc counts

theorem countOf_eq_of_mem (counts : List (ℕ × ℕ)) (p : ℕ × ℕ)
    (hnd : (counts.map Prod.fst).Nodup) (hmem : p ∈ counts) :
    countOf counts p.1 = p.2 := by
  unfold countOf
  rw [lookup_eq_of_nodupkeys counts p.1 p.2 hnd (by simpa using hmem)]
  rfl

theorem top30_nodup (counts : List (ℕ × ℕ))
    (hnd : (counts.map Prod.fst).Nodup) : (top30 counts).Nodup := by
  unfold top30
  rw [List.map_take]
  have hsnd : ((sortedCounts counts).map Prod.fst).Nodup :=
    (((sortedCounts_perm counts).map Prod.fst).nodup_iff).2 hnd
  exact (List.take_sublist _ _).nodup hsnd

theorem ranksOf_keys (sel : List ℕ) : (ranksOf sel).map Prod.fst = sel := by
  unfold ranksOf
  rw [List.map_map]
  exact List.enum_map_snd sel

/-- C6: in the ranked-visual mode, the selected class ids are the (at most)
30 class ids with the highest node-frequency counts, in descending
frequency order (every selected class counts at least as much as every
unselected one); the rank attached to a selected class is its 0-based
position in that order; and a drawing block is emitted exactly for the
nodes whose class is among the selected ones. -/
theorem hook2_top30_ranking (gids : List (ℕ × ℕ)) :
    (top30 (countPass gids).1).length ≤ 30
    ∧ List.Sorted
        (fun g h => countOf (countPass gids).1 h ≤ countOf (countPass gids).1 g)
        (top30 (countPass gids).1)
    ∧ (∀ g ∈ top30 (countPass gids).1, ∀ h ∈ ((countPass gids).1).map Prod.fst,
        h ∉ top30 (countPass gids).1 →
          countOf (countPass gids).1 h ≤ countOf (countPass gids).1 g)
    ∧ (∀ g i, (g, i) ∈ ranksOf (top30 (countPass gids).1)
        ↔ (top30 (countPass gids).1)[i]? = some g)
    ∧ (∀ node rank,
        (node, rank) ∈ drawnBlocks gids (ranksOf (top30 (countPass gids).1)) →
          ∃ gid, (node, gid) ∈ gids ∧ gid ∈ top30 (countPass gids).1)
    ∧ (∀ node gid, (node, gid) ∈ gids → gid ∈ top30 (countPass gids).1 →
        ∃ rank, (node, rank) ∈ drawnBlocks gids (ranksOf (top30 (countPass gids).1))) := by
  have hnd : (((countPass gids).1).map Prod.fst).Nodup := countPass_counts_nodup gids
  have hsorted := sortedCounts_sorted (countPass gids).1
  have hperm := sortedCounts_perm (countPass gids).1
  have hmem_take : ∀ p ∈ ((sortedCounts (countPass gids).1).take 30),
      p ∈ (countPass gids).1 :=
    fun p hp => hperm.mem_iff.1 ((List.take_sublist _ _).subset hp)
  have h4 : ∀ g i, (g, i) ∈ ranksOf (top30 (countPass gids).1)
      ↔ (top30 (countPass gids).1)[i]? = some g := by
    intro g i
    unfold ranksOf
    constructor
    · intro hmem
      obtain ⟨p, hp, heq⟩ := List.mem_map.1 hmem
      rw [Prod.mk.injEq] at heq
      obtain ⟨h1, h2⟩ := heq
      have hp' : (i, g) ∈ (top30 (countPass gids).1).enum := by
        have : p = (i, g) := by
          obtain ⟨pi, pg⟩ := p
          simp only at h1 h2
          subst h1; subst h2
          rfl
        rwa [this] at hp
      exact List.mk_mem_enum_iff_getElem?.1 hp'
    · intro hget
      exact List.mem_map.2 ⟨(i, g), List.mk_mem_enum_iff_getElem?.2 hget, rfl⟩
  refine ⟨?_, ?_, ?_, h4, ?_, ?_⟩
  · unfold top30
    rw [List.length_map, List.length_take]
    exact min_le_left _ _
  · unfold top30
    show List.Pairwise _ (((sortedCounts (countPass gids).1).take 30).map Prod.fst)
    rw [List.pairwise_map]
    have htake : List.Pairwise byCountDesc ((sortedCounts (countPass gids).1).take 30) :=
      hsorted.sublist (List.take_sublist _ _)
    refine htake.imp_of_mem ?_
    intro a b ha hb hr
    have hca := countOf_eq_of_mem (countPass gids).1 a hnd (hmem_take a ha)
    have hcb := countOf_eq_of_mem (countPass gids).1 b hnd (hmem_take b hb)
    rw [hca, hcb]
    exact hr
  · intro g hg h hh hnot
    obtain ⟨pg, hpgmem, hpg1⟩ := List.mem_map.1 hg
    obtain ⟨ph, hphmem, hph1⟩ := List.mem_map.1 hh
    have hph_sorted : ph ∈ sortedCounts (countPass gids).1 := hperm.mem_iff.2 hphmem
    rw [← List.take_append_drop 30 (sortedCounts (countPass gids).1)] at hph_sorted
    rcases List.mem_append.1 hph_sorted with htk | hdr
    · exact absurd (List.mem_map.2 ⟨ph, htk, hph1⟩) hnot
    · have hcross : ∀ a ∈ (sortedCounts (countPass gids).1).take 30,
          ∀ b ∈ (sortedCounts (countPass gids).1).drop 30, byCountDesc a b := by
        have hs := hsorted
        rw [← List.take_append_drop 30 (sortedCounts (countPass gids).1)] at hs
        exact (List.pairwise_append.1 hs).2.2
      have hbc : byCountDesc pg ph := hcross pg hpgmem ph hdr
      have hca := countOf_eq_of_mem (countPass gids).1 pg hnd (hmem_take pg hpgmem)
      have hcb := countOf_eq_of_mem (countPass gids).1 ph hnd
        (hperm.mem_iff.1 ((List.drop_sublist _ _).subset hdr))
      rw [← hpg1, ← hph1, hca, hcb]
      exact hbc
  · intro node rank hmem
    obtain ⟨p, hp, hfp⟩ := List.mem_filterMap.1 hmem
    rw [Option.map_eq_some'] at hfp
    obtain ⟨r, hr, heq⟩ := hfp
    rw [Prod.mk.injEq] at heq
    obtain ⟨h1, h2⟩ := heq
    refine ⟨p.2, ?_, ?_⟩
    · rw [← h1]
      exact hp
    · have hrk : (p.2, r) ∈ ranksOf (top30 (countPass gids).1) :=
        lookup_some_mem _ _ _ hr
      exact List.getElem?_mem ((h4 p.2 r).1 hrk)
  · intro node gid hg hmem
    obtain ⟨i, hi⟩ := List.mem_iff_getElem?.1 hmem
    have hrk : (gid, i) ∈ ranksOf (top30 (countPass gids).1) := (h4 gid i).2 hi
    have hndsel : ((ranksOf (top30 (countPass gids).1)).map Prod.fst).Nodup := by
      rw [ranksOf_keys]
      exact top30_nodup _ hnd
    have hlook := lookup_eq_of_nodupkeys _ gid i hndsel hrk
    refine ⟨i, List.mem_filterMap.2 ⟨(node, gid), hg, ?_⟩⟩
    rw [show ((node, gid) : ℕ × ℕ).2 = gid from rfl, hlook]
    rfl

theorem hook2_top30_ranking_witness :
    countOf (countPass ((List.range 31).map (fun i => (i, i)) ++ [(31, 0)])).1 30
      ≤ countOf (countPass ((List.range 31).map (fun i => (i, i)) ++ [(31, 0)])).1 0 :=
  (hook2_top30_ranking ((List.range 31).map (fun i => (i, i)) ++ [(31, 0)])).2.2.1
    0 (by decide) 30 (by decide) (by decide)

/-! ### JSON serialisation (lines 120-123 of petal.py)

`json.dumps(ids, indent=2, sort_keys=True)` on a dict with string keys and
natural-number values prints the opening brace, one line `"k": v` per
entry indented by two spaces, entries separated by commas, and the closing
brace on its own line (just the two braces when the dict is empty), with
keys sorted as strings.  Python `str(i)` for a node index is the decimal
numeral, embedded as `natToStr`. -/

def natToDecAux : ℕ → ℕ → List Char
  | 0, _ => []
  | fuel + 1, n =>
    if n < 10 then [Nat.digitChar n]
    else natToDecAux fuel (n / 10) ++ [Nat.digitChar (n % 10)]

/-- The decimal numeral of `n` (Python `str(i)` for a nonnegative index). -/
def natToDec (n : ℕ) : List Char := natToDecAux (n + 1) n

def natToStr (n : ℕ) : String := String.mk (natToDec n)

/-- `sort_keys=True`: ascending lexicographic order on the key strings. -/
def byKey (a b : String × ℕ) : Prop := a.1 ≤ b.1

instance : DecidableRel byKey := fun a b => inferInstanceAs (Decidable (a.1 ≤ b.1))

instance : IsTotal (String × ℕ) byKey := ⟨fun a b => le_total a.1 b.1⟩

instance : IsTrans (String × ℕ) byKey := ⟨fun _ _ _ h1 h2 => le_trans h1 h2⟩

def sortEntries (m : List (String × ℕ)) : List (String × ℕ) :=
  List.insertionSort byKey m

def entryStr (e : String × ℕ) : String := "\"" ++ e.1 ++ "\": " ++ natToStr e.2

def entriesStr : List (String × ℕ) → String
  | [] => ""
  | [e] => entryStr e
  | e :: es => entryStr e ++ ",\n  " ++ entriesStr es

def dumps (m : List (String × ℕ)) : String :=
  match m with
  | [] => "\x7b\x7d"
  | _ => "\x7b\n  " ++ entriesStr m ++ "\n\x7d"

/-- The JSON branch of `hook2` (lines 120-123):
`ids = \x7bstr(i): gids[i] for i in gids\x7d` then
`json.dumps(ids, indent=2, sort_keys=True)`. -/
def jsonOutput (gids : List (ℕ × ℕ)) : String :=
  dumps (sortEntries (gids.map (fun p => (natToStr p.1, p.2))))

/-! ### C8: output-mode selection of `hook2` (lines 120-145) -/

/-- What `hook2` prints to standard output: the `if options.json / elif
options.yaplot` chain of lines 120-145.  The yaplot text itself is built
from external yaplotlib primitives and passed here abstractly. -/
def hook2Prints (opts : Options) (gids : List (ℕ × ℕ)) (yaplotText : String) :
    List String :=
  if opts.json then [jsonOutput gids]
  else if opts.yaplot then [yaplotText]
  else []

/-- C8: the two output modes are mutually exclusive and default-silent:
with neither flag set `hook2` prints nothing, and with `json` set (even
together with `yaplot`) only the JSON dump is printed — the json branch
takes precedence over yaplot. -/
theorem hook2_output_modes (opts : Options) (gids : List (ℕ × ℕ)) (ytext : String) :
    (opts.json = false → opts.yaplot = false → hook2Prints opts gids ytext = [])
    ∧ (opts.json = true → hook2Prints opts gids ytext = [jsonOutput gids])
    ∧ (opts.json = true → opts.yaplot = true →
        hook2Prints opts gids ytext
          = hook2Prints { opts with yaplot := false } gids ytext) := by
  refine ⟨?_, ?_, ?_⟩ <;> intros <;> simp [hook2Prints, *]

theorem hook2_output_modes_witness :
    hook2Prints { database := none, json := false, yaplot := false } [] "y" = []
    ∧ hook2Prints { database := none, json := true, yaplot := true } [] "y"
        = [jsonOutput []]
    ∧ hook2Prints { database := none, json := true, yaplot := true } [] "y"
        = hook2Prints { database := none, json := true, yaplot := false } [] "y" := by
  have h := hook2_output_modes { database := none, json := true, yaplot := true } [] "y"
  have h0 := hook2_output_modes { database := none, json := false, yaplot := false } [] "y"
  exact ⟨h0.1 rfl rfl, h.2.1 rfl, h.2.2 rfl rfl⟩

/-! ### A parser for the emitted JSON (for the round-trip property) -/

def lbrace : Char := Char.ofNat 123

def rbrace : Char := Char.ofNat 125

/-- Value of a (non-empty) decimal digit string. -/
def decToNat (cs : List Char) : ℕ :=
  cs.foldl (fun a c => 10 * a + (c.toNat - 48)) 0

/-- Parse one `"key": value` entry, returning it and the remaining input. -/
def parseEntry (cs : List Char) : Option ((String × ℕ) × List Char) :=
  match cs with
  | [] => none
  | c :: rest =>
    if c = '"' then
      let key := rest.takeWhile (fun x => x != '"')
      match rest.dropWhile (fun x => x != '"') with
      | q :: c1 :: c2 :: rest2 =>
        if q = '"' ∧ c1 = ':' ∧ c2 = ' ' then
          let ds := rest2.takeWhile Char.isDigit
          if ds = [] then none
          else some ((String.mk key, decToNat ds), rest2.dropWhile Char.isDigit)
        else none
      | _ => none
    else none

/-- Parse a nonempty `, `-and-newline separated entry sequence terminated by
the closing brace line. -/
def parseItems (fuel : ℕ) (cs : List Char) : Option (List (String × ℕ)) :=
  match fuel with
  | 0 => none
  | fuel + 1 =>
    match parseEntry cs with
    | none => none
    | some (e, rest) =>
      match rest with
      | c1 :: c2 :: more2 =>
        if c1 = ',' ∧ c2 = '\n' then
          match more2 with
          | c3 :: c4 :: more =>
            if c3 = ' ' ∧ c4 = ' ' then
              match parseItems fuel more with
              | some es => some (e :: es)
              | none => none
            else none
          | _ => none
        else if c1 = '\n' ∧ c2 = rbrace ∧ more2 = [] then some [e]
        else none
      | _ => none

/-- Parse the output of `dumps`: a brace-enclosed, 2-space indented object
with string keys and natural-number values. -/
def parseJson (s : String) : Option (List (String × ℕ)) :=
  match s.data with
  | [] => none
  | c :: rest =>
    if c = lbrace then
      match rest with
      | [d] => if d = rbrace then some [] else none
      | c1 :: c2 :: c3 :: more =>
        if c1 = '\n' ∧ c2 = ' ' ∧ c3 = ' ' then parseItems (more.length + 1) more
        else none
      | _ => none
    else none

/-! ### Decimal numeral lemmas -/

theorem natToDecAux_shape (fuel : ℕ) :
    ∀ (n : ℕ), ∀ c ∈ natToDecAux fuel n, ∃ m, m < 10 ∧ c = Nat.digitChar m := by
  induction fuel with
  | zero =>
    intro n c hc
    simp [natToDecAux] at hc
  | succ fuel ih =>
    intro n c hc
    unfold natToDecAux at hc
    by_cases hn : n < 10
    · rw [if_pos hn] at hc
      rw [List.mem_singleton] at hc
      exact ⟨n, hn, hc⟩
    · rw [if_neg hn] at hc
      rcases List.mem_append.1 hc with h1 | h2
      · exact ih (n / 10) c h1
      · rw [List.mem_singleton] at h2
        exact ⟨n % 10, Nat.mod_lt n (by omega), h2⟩

theorem natToDec_not_quote (n : ℕ) : ∀ c ∈ natToDec n, (c != '"') = true := by
  intro c hc
  obtain ⟨m, hm, rfl⟩ := natToDecAux_shape (n + 1) n c hc
  interval_cases m <;> decide

theorem natToDec_isDigit (n : ℕ) : ∀ c ∈ natToDec n, c.isDigit = true := by
  intro c hc
  obtain ⟨m, hm, rfl⟩ := natToDecAux_shape (n + 1) n c hc
  interval_cases m <;> decide

theorem natToDecAux_ne_nil (fuel n : ℕ) (h : 0 < fuel) : natToDecAux fuel n ≠ [] := by
  cases fuel with
  | zero => omega
  | succ fuel =>
    unfold natToDecAux
    by_cases hn : n < 10
    · simp [hn]
    · simp [hn]

theorem natToDec_ne_nil (n : ℕ) : natToDec n ≠ [] :=
  natToDecAux_ne_nil (n + 1) n (Nat.succ_pos n)

theorem digitChar_toNat (m : ℕ) (h : m < 10) : (Nat.digitChar m).toNat = m + 48 := by
  interval_cases m <;> decide

theorem decToNat_aux (fuel : ℕ) :
    ∀ (n acc : ℕ), n < fuel →
      (natToDecAux fuel n).foldl (fun a c => 10 * a + (c.toNat - 48)) acc
        = acc * 10 ^ (natToDecAux fuel n).length + n := by
  induction fuel with
  | zero =>
    intro n acc h
    omega
  | succ fuel ih =>
    intro n acc h
    unfold natToDecAux
    by_cases hn : n < 10
    · rw [if_pos hn]
      simp only [List.foldl_cons, List.foldl_nil, List.length_singleton, pow_one]
      rw [digitChar_toNat n hn]
      omega
    · rw [if_neg hn]
      have hd : n / 10 < fuel := by
        have h1 : n / 10 < n := Nat.div_lt_self (by omega) (by omega)
        omega
      rw [List.foldl_append, ih (n / 10) acc hd]
      simp only [List.foldl_cons, List.foldl_nil, List.length_append,
        List.length_singleton]
      rw [digitChar_toNat (n % 10) (Nat.mod_lt n (by omega))]
      have hsplit : 10 * (n / 10) + n % 10 = n := Nat.div_add_mod n 10
      have hcalc : 10 * (acc * 10 ^ (natToDecAux fuel (n / 10)).length + n / 10)
            + (n % 10 + 48 - 48)
          = acc * 10 ^ ((natToDecAux fuel (n / 10)).length + 1)
            + (10 * (n / 10) + n % 10) := by
        rw [pow_succ]
        ring_nf
        omega
      rw [hcalc, hsplit]

theorem decToNat_natToDec (n : ℕ) : decToNat (natToDec n) = n := by
  unfold decToNat natToDec
  rw [decToNat_aux (n + 1) n 0 (Nat.lt_succ_self n)]
  simp

/-! ### takeWhile / dropWhile splitting -/

theorem takeWhile_append_eq (p : Char → Bool) (xs : List Char) (y : Char)
    (ys : List Char) (hxs : ∀ c ∈ xs, p c = true) (hy : p y = false) :
    (xs ++ y :: ys).takeWhile p = xs ∧ (xs ++ y :: ys).dropWhile p = y :: ys := by
  induction xs with
  | nil => simp [List.takeWhile_cons, List.dropWhile_cons, hy]
  | cons x xs ih =>
    have hx : p x = true := hxs x (List.mem_cons_self x xs)
    obtain ⟨h1, h2⟩ := ih (fun c hc => hxs c (List.mem_cons_of_mem x hc))
    simp [List.takeWhile_cons, List.dropWhile_cons, hx, h1, h2]

theorem entryStr_data (e : String × ℕ) :
    (entryStr e).data = '"' :: (e.1.data ++ '"' :: ':' :: ' ' :: natToDec e.2) := by
  unfold entryStr natToStr
  rw [String.data_append, String.data_append, String.data_append]
  simp

theorem parseEntry_spec (e : String × ℕ) (y : Char) (ys : List Char)
    (hkey : ∀ c ∈ e.1.data, (c != '"') = true) (hy : y.isDigit = false) :
    parseEntry ((entryStr e).data ++ y :: ys) = some ((e.1, e.2), y :: ys) := by
  rw [entryStr_data,
    show (('"' :: (e.1.data ++ '"' :: ':' :: ' ' :: natToDec e.2)) ++ y :: ys : List Char)
        = '"' :: (e.1.data ++ '"' :: (':' :: ' ' :: (natToDec e.2 ++ y :: ys))) from by simp]
  obtain ⟨htake, hdrop⟩ := takeWhile_append_eq (fun x => x != '"') e.1.data '"'
    (':' :: ' ' :: (natToDec e.2 ++ y :: ys)) hkey (by decide)
  obtain ⟨htake2, hdrop2⟩ := takeWhile_append_eq Char.isDigit (natToDec e.2) y ys
    (natToDec_isDigit e.2) hy
  simp only [parseEntry, htake, hdrop, htake2, hdrop2]
  rw [if_pos trivial, if_pos ⟨trivial, trivial, trivial⟩,
    if_neg (natToDec_ne_nil e.2), decToNat_natToDec]

theorem entriesStr_length (m : List (String × ℕ)) :
    m.length ≤ (entriesStr m).data.length := by
  induction m with
  | nil => simp
  | cons e es ih =>
    cases es with
    | nil =>
      rw [show entriesStr [e] = entryStr e from rfl, entryStr_data]
      simp
    | cons e2 es2 =>
      rw [show entriesStr (e :: e2 :: es2)
          = entryStr e ++ ",\n  " ++ entriesStr (e2 :: es2) from rfl]
      rw [String.data_append, String.data_append]
      simp only [List.length_append, List.length_cons]
      have h1 : 1 ≤ (entryStr e).data.length := by
        rw [entryStr_data]
        simp
      simp only [List.length_cons] at ih ⊢
      have h2 : (",\n  " : String).data.length = 4 := by decide
      omega

theorem parseItems_spec (m : List (String × ℕ)) :
    ∀ (fuel : ℕ), m ≠ [] → m.length ≤ fuel →
      (∀ e ∈ m, ∀ c ∈ e.1.data, (c != '"') = true) →
      parseItems fuel ((entriesStr m).data ++ '\n' :: [rbrace]) = some m := by
  induction m with
  | nil =>
    intro fuel hne _ _
    exact absurd rfl hne
  | cons e es ih =>
    intro fuel _ hfuel hkeys
    obtain ⟨fuel, rfl⟩ : ∃ f, fuel = f + 1 := by
      cases fuel with
      | zero => simp at hfuel
      | succ f => exact ⟨f, rfl⟩
    have hke : ∀ c ∈ e.1.data, (c != '"') = true :=
      hkeys e (List.mem_cons_self e es)
    cases es with
    | nil =>
      rw [show entriesStr [e] = entryStr e from rfl]
      have hent := parseEntry_spec e '\n' [rbrace] hke (by decide)
      simp [parseItems, hent]
    | cons e2 es2 =>
      rw [show entriesStr (e :: e2 :: es2)
          = entryStr e ++ ",\n  " ++ entriesStr (e2 :: es2) from rfl]
      have hshape : ((entryStr e ++ ",\n  " ++ entriesStr (e2 :: es2)).data
            ++ '\n' :: [rbrace])
          = (entryStr e).data
            ++ ',' :: '\n' :: ' ' :: ' ' :: ((entriesStr (e2 :: es2)).data
              ++ '\n' :: [rbrace]) := by
        rw [String.data_append, String.data_append]
        simp
      rw [hshape]
      have hent := parseEntry_spec e ','
        ('\n' :: ' ' :: ' ' :: ((entriesStr (e2 :: es2)).data ++ '\n' :: [rbrace]))
        hke (by decide)
      have hrec := ih fuel (by simp) (by simp at hfuel ⊢; omega)
        (fun x hx => hkeys x (List.mem_cons_of_mem e hx))
      simp [parseItems, hent, hrec]

theorem parseJson_dumps (m : List (String × ℕ))
    (hkeys : ∀ e ∈ m, ∀ c ∈ e.1.data, (c != '"') = true) :
    parseJson (dumps m) = some m := by
  cases m with
  | nil => decide
  | cons e es =>
    rw [show dumps (e :: es) = "\x7b\n  " ++ entriesStr (e :: es) ++ "\n\x7d" from rfl]
    have hA : ("\x7b\n  " : String).data = [lbrace, '\n', ' ', ' '] := by decide
    have hB : ("\n\x7d" : String).data = ['\n', rbrace] := by decide
    have hshape : ("\x7b\n  " ++ entriesStr (e :: es) ++ "\n\x7d").data
        = lbrace :: '\n' :: ' ' :: ' '
            :: ((entriesStr (e :: es)).data ++ '\n' :: [rbrace]) := by
      rw [String.data_append, String.data_append, hA, hB]
      simp
    have hitems := parseItems_spec (e :: es)
      (((entriesStr (e :: es)).data ++ '\n' :: [rbrace]).length + 1)
      (by simp)
      (by
        have := entriesStr_length (e :: es)
        simp only [List.length_append, List.length_cons] at this ⊢
        omega)
      hkeys
    unfold parseJson
    rw [hshape]
    exact hitems

/-! ### C5: the JSON mode output -/

/-- C5: the JSON branch emits `dumps` of the classification with
stringified keys sorted as strings; parsing the emitted text back succeeds
and yields exactly those sorted entries; the key list is sorted
lexicographically and is a permutation of the string forms of the
ring-owning node ids; and every classification pair survives the round
trip with its ClassID. -/
theorem json_mode_roundtrip {σ : Type} (R : RegIface σ) (coord : ℕ → Vec3)
    (ringList : List (List ℕ)) (st : PState) (s : σ)
    (h : prepare coord ringList = some st) :
    parseJson (jsonOutput (collect R st s).1)
        = some (sortEntries ((collect R st s).1.map (fun p => (natToStr p.1, p.2))))
    ∧ List.Sorted (fun a b : String => a ≤ b)
        ((sortEntries ((collect R st s).1.map (fun p => (natToStr p.1, p.2)))).map
          Prod.fst)
    ∧ List.Perm
        ((sortEntries ((collect R st s).1.map (fun p => (natToStr p.1, p.2)))).map
          Prod.fst)
        (st.subKeys.map natToStr)
    ∧ (∀ n, n ∈ st.subKeys ↔ ∃ r ∈ ringList, n ∈ r)
    ∧ (∀ p ∈ (collect R st s).1,
        (natToStr p.1, p.2)
          ∈ sortEntries ((collect R st s).1.map (fun q => (natToStr q.1, q.2)))) := by
  have hperm : List.Perm
      (sortEntries ((collect R st s).1.map (fun p => (natToStr p.1, p.2))))
      ((collect R st s).1.map (fun p => (natToStr p.1, p.2))) :=
    List.perm_insertionSort byKey _
  refine ⟨?_, ?_, ?_, prepare_subKeys_iff coord ringList st h, ?_⟩
  · apply parseJson_dumps
    intro e he c hc
    have hmem : e ∈ (collect R st s).1.map (fun p => (natToStr p.1, p.2)) :=
      hperm.mem_iff.1 he
    obtain ⟨p, _, hp⟩ := List.mem_map.1 hmem
    have hc1 : c ∈ natToDec p.1 := by
      have : e.1 = natToStr p.1 := by rw [← hp]
      rw [this] at hc
      exact hc
    exact natToDec_not_quote p.1 c hc1
  · show List.Pairwise _ _
    rw [List.pairwise_map]
    exact (List.sorted_insertionSort byKey _).imp (fun hab => hab)
  · have h1 : List.Perm
        ((sortEntries ((collect R st s).1.map (fun p => (natToStr p.1, p.2)))).map
          Prod.fst)
        (((collect R st s).1.map (fun p => (natToStr p.1, p.2))).map Prod.fst) :=
      hperm.map Prod.fst
    have h2 : ((collect R st s).1.map (fun p => (natToStr p.1, p.2))).map Prod.fst
        = st.subKeys.map natToStr := by
      rw [List.map_map, ← collectAux_keys R st.sub st.subKeys s, List.map_map]
      rfl
    rw [h2] at h1
    exact h1
  · intro p hp
    exact hperm.mem_iff.2
      (List.mem_map_of_mem (fun q => (natToStr q.1, q.2)) hp)

theorem json_mode_roundtrip_witness :
    parseJson (jsonOutput (collect regFresh (addRing initState [0, 1, 2]) 0).1)
      = some (sortEntries ((collect regFresh (addRing initState [0, 1, 2]) 0).1.map
          (fun p => (natToStr p.1, p.2)))) :=
  (json_mode_roundtrip regFresh coord0 [[0, 1, 2]]
    (addRing initState [0, 1, 2]) 0 prepare_coord0_triangle).1

end GenicePetal
